import Mathlib

/-!
# A verification development for the `rsync_rust` core

Shallow embedding of the content-matching engine of the repository:
the signature builder (`src/signature.rs`), the delta builder
(`src/delta.rs`), the patcher (`src/patch.rs`), the serialization layer
and the CLI command handlers (`src/main.rs`).

Byte sequences (`bytes::Bytes`) are `List Nat`; a value is a byte when it
is `< 256`.  Machine integers (`u64`, `usize`) are `Nat` with explicit
range conditions where they matter.  Code that can panic (`unwrap`,
`expect`, out-of-bounds `Vec` indexing) is embedded in `Option`, with
`none` standing for the panic.

The two hash primitives live in crates that are not part of this
repository (`rolling_hash_rust::RollingHash` and
`std::collections::hash_map::DefaultHasher`), so they are modelled from
the specification, as documented on their definitions.
-/

namespace Rsync

/-- Byte strings (`bytes::Bytes`): lists of naturals, each `< 256` for a
well-formed byte. -/
abbrev Bytes := List Nat

/-- Modelled from the spec: `calculate_strong_hash` in `src/signature.rs`
delegates to `std::collections::hash_map::DefaultHasher`, which is not part
of this repository.  The spec (§4.1) requires a deterministic strong hash
chosen so that `strong(x) = strong(y)` implies `x = y` for the block sizes
used; we model it as the base-257 positional encoding of the byte string,
which is injective on lists of bytes (values `< 256`). -/
def calculate_strong_hash (content : List Nat) : Nat :=
  content.foldl (fun acc b => acc * 257 + b + 1) 0

/-- Base of the modelled polynomial rolling hash.  It exceeds every Unicode
scalar value (`0x10FFFF`), so same-length sequences of scalar values hash
injectively. -/
def rollingBase : Nat := 2097152

/-- Modelled from the spec: the polynomial hash of a window of Unicode
scalar values, standing for `rolling_hash_rust`'s hash value.  The spec
(§4.1) prescribes a straightforward polynomial rolling hash with O(1)
update; the exact polynomial is implementor-defined. -/
def polyHash (window : List Nat) : Nat :=
  window.foldl (fun acc c => acc * rollingBase + c) 0

/-- Modelled from the spec: the state of `rolling_hash_rust::RollingHash`
(not part of this repository).  The spec (§4.1, §9) describes a small state
machine over a window of characters with initialize / slide / read
operations; we keep the current window, and `get_current_hash` reads its
polynomial hash (for a polynomial hash the incremental update of the crate
computes exactly the hash of the current window). -/
structure RollingHash where
  window : List Nat
deriving DecidableEq

/-- Rust `RollingHash::from_initial_string`: the initial window holds the
characters (Unicode scalar values) of the given string. -/
def RollingHash.from_initial_chars (cs : List Nat) : RollingHash :=
  ⟨cs⟩

/-- Rust `RollingHash::pop_front`: drop the leading character of the window. -/
def RollingHash.pop_front (h : RollingHash) : RollingHash :=
  ⟨h.window.tail⟩

/-- Rust `RollingHash::push_back`: append a character to the window. -/
def RollingHash.push_back (h : RollingHash) (c : Nat) : RollingHash :=
  ⟨h.window ++ [c]⟩

/-- Rust `RollingHash::get_current_hash`: the hash of the current window. -/
def RollingHash.get_current_hash (h : RollingHash) : Nat :=
  polyHash h.window

/-- Whether a byte is a UTF-8 continuation byte (`0x80..=0xBF`). -/
def isCont (b : Nat) : Bool :=
  128 ≤ b && b ≤ 191

/-- Valid range of the first continuation byte of a three-byte UTF-8
sequence, which depends on the lead byte (excludes overlong forms and
surrogates). -/
def cont1ok3 (lead c1 : Nat) : Bool :=
  if lead = 224 then 160 ≤ c1 && c1 ≤ 191
  else if lead = 237 then 128 ≤ c1 && c1 ≤ 159
  else isCont c1

/-- Valid range of the first continuation byte of a four-byte UTF-8
sequence, which depends on the lead byte (excludes overlong forms and
values beyond `U+10FFFF`). -/
def cont1ok4 (lead c1 : Nat) : Bool :=
  if lead = 240 then 144 ≤ c1 && c1 ≤ 191
  else if lead = 244 then 128 ≤ c1 && c1 ≤ 143
  else isCont c1

/-- The characters (Unicode scalar values) of
`String::from_utf8_lossy(bytes)`: UTF-8 decoding where each maximal valid
prefix of an invalid sequence is replaced by one `U+FFFD` (65533),
decoding then resuming at the offending byte. -/
def utf8LossyChars : List Nat → List Nat
  | [] => []
  | b :: rest =>
    if b < 128 then b :: utf8LossyChars rest
    else if b < 194 then 65533 :: utf8LossyChars rest
    else if b ≤ 223 then
      match rest with
      | [] => [65533]
      | c1 :: rest2 =>
        if isCont c1 then (64 * (b - 192) + (c1 - 128)) :: utf8LossyChars rest2
        else 65533 :: utf8LossyChars (c1 :: rest2)
    else if b ≤ 239 then
      match rest with
      | [] => [65533]
      | c1 :: rest2 =>
        if cont1ok3 b c1 then
          match rest2 with
          | [] => [65533]
          | c2 :: rest3 =>
            if isCont c2 then
              (4096 * (b - 224) + 64 * (c1 - 128) + (c2 - 128)) :: utf8LossyChars rest3
            else 65533 :: utf8LossyChars (c2 :: rest3)
        else 65533 :: utf8LossyChars (c1 :: rest2)
    else if b ≤ 244 then
      match rest with
      | [] => [65533]
      | c1 :: rest2 =>
        if cont1ok4 b c1 then
          match rest2 with
          | [] => [65533]
          | c2 :: rest3 =>
            if isCont c2 then
              match rest3 with
              | [] => [65533]
              | c3 :: rest4 =>
                if isCont c3 then
                  (262144 * (b - 240) + 4096 * (c1 - 128) + 64 * (c2 - 128) + (c3 - 128))
                    :: utf8LossyChars rest4
                else 65533 :: utf8LossyChars (c3 :: rest4)
            else 65533 :: utf8LossyChars (c2 :: rest3)
        else 65533 :: utf8LossyChars (c1 :: rest2)
    else 65533 :: utf8LossyChars rest

/-- Rust `FileSignature` (src/signature.rs): one strong and one rolling hash per
basis chunk, in positional lock-step. -/
structure FileSignature where
  strong_hashes : List Nat
  rolling_hashes : List Nat
deriving DecidableEq

/-- Rust `basis_file.chunks(chunk_size)` (Rust slice `chunks`): consecutive
non-overlapping chunks of the given size, the last possibly shorter.
`chunks(0)` panics in Rust; this model is only meaningful for
`chunk_size ≥ 1`. -/
def chunksList (chunk_size : Nat) : List Nat → List (List Nat)
  | [] => []
  | b :: rest =>
    (b :: rest.take (chunk_size - 1)) :: chunksList chunk_size (rest.drop (chunk_size - 1))
termination_by l => l.length
decreasing_by simp_arith [List.length_drop]

/-- Rust `compute_signature` (src/signature.rs): strong hash of each chunk's raw
bytes, and rolling hash of each chunk's `from_utf8_lossy` characters
(`RollingHash::from_initial_string(&String::from_utf8_lossy(block))`). -/
def compute_signature (basis_file : Bytes) (chunk_size : Nat) : FileSignature :=
  { strong_hashes := (chunksList chunk_size basis_file).map calculate_strong_hash
    rolling_hashes := (chunksList chunk_size basis_file).map
      (fun block =>
        (RollingHash.from_initial_chars (utf8LossyChars block)).get_current_hash) }

/-- Rust `Token` (src/delta.rs): a delta entry is a reference to a block in the
basis file or a byte literal to reconstruct directly. -/
inductive Token where
  | BlockIndex (index : Nat)
  | ByteLiteral (byte : Nat)
deriving DecidableEq

/-- Rust `Delta` (src/delta.rs): how to transform the basis file into the
updated file, in order. -/
structure Delta where
  content : List Token
deriving DecidableEq

/-- Rust `bytes.windows(size)` (Rust slice `windows`): all contiguous windows of
the given size, left to right; empty when the slice is shorter than the
window.  `windows(0)` panics in Rust; this model is only meaningful for
`size ≥ 1`. -/
def windowsList (size : Nat) : List Nat → List (List Nat)
  | [] => []
  | b :: rest =>
    if rest.length + 1 < size then []
    else (b :: rest.take (size - 1)) :: windowsList size rest

/-- The chain of rolling-hash values recorded by the delta builder: record
the current hash, then for each later window `pop_front` the leading
character, `push_back` the window's last byte (`*window.last().unwrap() as
char`) and record again. -/
def slidingHashesFrom (hasher : RollingHash) : List Nat → List Nat
  | [] => [hasher.get_current_hash]
  | newByte :: laterBytes =>
    hasher.get_current_hash ::
      slidingHashesFrom ((hasher.pop_front).push_back newByte) laterBytes

/-- Rust `our_sliding_blocks_rolling_hashes` (src/delta.rs, lines 61-85): when
`chunk_size <= updated_file.len()`, initialize a `RollingHash` over the
`from_utf8_lossy` characters of the first window
(`windows_iter.next().unwrap()`, `none` models the panic on an empty
windows iterator), then slide once per later window, pushing that window's
last raw byte as a character; otherwise there is no block at all and the
vector is empty. -/
def compute_rolling_hashes (updated_file : Bytes) (chunk_size : Nat) :
    Option (List Nat) :=
  if chunk_size ≤ updated_file.length then
    match windowsList chunk_size updated_file with
    | [] => none
    | first :: laterWindows =>
      (laterWindows.mapM List.getLast?).map
        (fun lastBytes =>
          slidingHashesFrom (RollingHash.from_initial_chars (utf8LossyChars first))
            lastBytes)
  else some []

/-- One `HashMap::insert` (std): equal keys keep the latest value. -/
def insertHM (m : Nat → Option Nat) (key value : Nat) : Nat → Option Nat :=
  fun query => if query = key then some value else m query

/-- Helper for `build_their_rolling_hashes`: fold the hashes in order,
numbering from `i`, inserting each into the map. -/
def buildHMFrom (i : Nat) (m : Nat → Option Nat) : List Nat → (Nat → Option Nat)
  | [] => m
  | hash :: rest => buildHMFrom (i + 1) (insertHM m hash i) rest

/-- Rust `their_rolling_hashes` (src/delta.rs, lines 90-100): a map from
rolling-hash value to the index of the signature block with that hash,
built by inserting `(hash, index)` for each signature entry in order
(`.iter().enumerate().for_each(insert)`); on equal hashes the last
insertion wins. -/
def build_their_rolling_hashes (rolling_hashes : List Nat) : Nat → Option Nat :=
  buildHMFrom 0 (fun _ => none) rolling_hashes

/-- The `while index < our_file_size` loop of `compute_delta_to_our_file`
(src/delta.rs, lines 102-164), with the cursor represented by suffixes:
the first list is `updated_file[index..]` and the second is
`our_sliding_blocks_rolling_hashes[index..]`.  A byte of a trailing block
(`index + chunk_size - 1 >= our_file_size`, i.e. fewer than `chunk_size`
bytes remain) is sent as a `ByteLiteral`; otherwise the window's rolling
hash is looked up in the map, a hit is confirmed against
`signature.strong_hashes[matched_block_index]` (`none` models the panic
when that index is out of bounds for `strong_hashes`), a confirmed match
emits `BlockIndex` and advances by `chunk_size`, and anything else emits
`ByteLiteral` and advances by one. -/
def delta_loop (signature : FileSignature) (their : Nat → Option Nat)
    (chunk_size : Nat) : List Nat → List Nat → Option (List Token)
  | [], _ => some []
  | b :: rest, rhashes =>
    if rest.length + 1 < chunk_size then
      (delta_loop signature their chunk_size rest rhashes.tail).map
        (fun tokens => Token.ByteLiteral b :: tokens)
    else
      match rhashes with
      | [] => none
      | rh :: rhrest =>
        match their rh with
        | some matched_block_index =>
          match signature.strong_hashes.get? matched_block_index with
          | none => none
          | some their_strong_hash =>
            if calculate_strong_hash (b :: rest.take (chunk_size - 1))
                = their_strong_hash then
              (delta_loop signature their chunk_size (rest.drop (chunk_size - 1))
                  ((rh :: rhrest).drop chunk_size)).map
                (fun tokens => Token.BlockIndex matched_block_index :: tokens)
            else
              (delta_loop signature their chunk_size rest rhrest).map
                (fun tokens => Token.ByteLiteral b :: tokens)
        | none =>
          (delta_loop signature their chunk_size rest rhrest).map
            (fun tokens => Token.ByteLiteral b :: tokens)
termination_by l _ => l.length
decreasing_by all_goals simp_arith [List.length_drop]

/-- Rust `compute_delta_to_our_file` (src/delta.rs, lines 52-169): precompute
the sliding rolling hashes, build the hash-to-index map from the
signature, and run the scanning loop. -/
def compute_delta_to_our_file (signature : FileSignature)
    (updated_file : Bytes) (chunk_size : Nat) : Option Delta :=
  (compute_rolling_hashes updated_file chunk_size).bind
    (fun our_sliding_blocks_rolling_hashes =>
      (delta_loop signature (build_their_rolling_hashes signature.rolling_hashes)
          chunk_size updated_file our_sliding_blocks_rolling_hashes).map Delta.mk)

/-- The token-consuming loop of `apply_delta` (src/patch.rs): `BlockIndex`
appends the bytes of the referenced basis chunk (`blocks.get(index)
.unwrap()`, `none` models the panic on an out-of-range index), and
`ByteLiteral` appends the single byte. -/
def apply_tokens (blocks : List (List Nat)) :
    List Token → List Nat → Option (List Nat)
  | [], reconstructed => some reconstructed
  | Token.BlockIndex index :: rest, reconstructed =>
    match blocks.get? index with
    | none => none
    | some block => apply_tokens blocks rest (reconstructed ++ block)
  | Token.ByteLiteral byte :: rest, reconstructed =>
    apply_tokens blocks rest (reconstructed ++ [byte])

/-- Rust `apply_delta` (src/patch.rs, lines 16-30): chunk the basis file exactly
as the signature builder does, then replay the delta's tokens in order. -/
def apply_delta (basis_file : Bytes) (delta : Delta) (chunk_size : Nat) :
    Option Bytes :=
  apply_tokens (chunksList chunk_size basis_file) delta.content []

/-- Position of the last occurrence of a value in a list, if any. -/
def lastIdx (q : Nat) : List Nat → Option Nat
  | [] => none
  | h :: rest =>
    match lastIdx q rest with
    | some k => some (k + 1)
    | none => if h = q then some 0 else none

/-- Little-endian byte string of a machine integer of the given width. -/
def toLEBytes : Nat → Nat → List Nat
  | 0, _ => []
  | width + 1, n => n % 256 :: toLEBytes width (n / 256)

/-- Value of a little-endian byte string. -/
def fromLEBytes : List Nat → Nat
  | [] => 0
  | b :: rest => b + 256 * fromLEBytes rest

/-- Modelled from the spec: one 64-bit unsigned integer of the wire format
(§6), as eight little-endian bytes.  The concrete `rmp_serde` (MessagePack)
encoding is an external crate; the spec fixes only a self-describing binary
encoding with integer types and array framing. -/
def encodeU64 (n : Nat) : List Nat :=
  toLEBytes 8 n

/-- Read one 64-bit unsigned integer from the front of a byte string. -/
def readU64 (l : List Nat) : Option (Nat × List Nat) :=
  if 8 ≤ l.length then some (fromLEBytes (l.take 8), l.drop 8) else none

/-- Modelled from the spec: array framing for a vector of 64-bit unsigned
integers, a length header followed by the elements. -/
def encodeU64Vec (v : List Nat) : List Nat :=
  encodeU64 v.length ++ (v.map encodeU64).flatten

/-- Read the given number of 64-bit unsigned integers. -/
def readU64List : Nat → List Nat → Option (List Nat × List Nat)
  | 0, l => some ([], l)
  | count + 1, l =>
    (readU64 l).bind (fun p =>
      (readU64List count p.2).map (fun q => (p.1 :: q.1, q.2)))

/-- Read a length-framed vector of 64-bit unsigned integers. -/
def readU64Vec (l : List Nat) : Option (List Nat × List Nat) :=
  (readU64 l).bind (fun p => readU64List p.1 p.2)

/-- Modelled from the spec: serialization of a `FileSignature`
(`impl From<FileSignature> for Bytes`, src/signature.rs, delegating to the
external `rmp_serde`): the two positional arrays in order, each with array
framing (§6). -/
def FileSignature.toBytes (s : FileSignature) : List Nat :=
  encodeU64Vec s.strong_hashes ++ encodeU64Vec s.rolling_hashes

/-- Modelled from the spec: deserialization of a `FileSignature`
(`impl From<Bytes> for FileSignature`, src/signature.rs); `none` is a
decoding error (the source `expect`s on it). -/
def FileSignature.fromBytes (l : List Nat) : Option FileSignature :=
  (readU64Vec l).bind (fun p =>
    (readU64Vec p.2).bind (fun q =>
      if q.2 = [] then some ⟨p.1, q.1⟩ else none))

/-- Modelled from the spec: one tagged token of the delta wire format
(§6), a stable tag byte followed by the payload. -/
def encodeToken : Token → List Nat
  | Token.BlockIndex index => 0 :: encodeU64 index
  | Token.ByteLiteral byte => 1 :: [byte]

/-- Read one tagged token. -/
def readToken : List Nat → Option (Token × List Nat)
  | [] => none
  | tag :: rest =>
    if tag = 0 then (readU64 rest).map (fun p => (Token.BlockIndex p.1, p.2))
    else if tag = 1 then
      match rest with
      | [] => none
      | byte :: rest2 => some (Token.ByteLiteral byte, rest2)
    else none

/-- Read the given number of tagged tokens. -/
def readTokens : Nat → List Nat → Option (List Token × List Nat)
  | 0, l => some ([], l)
  | count + 1, l =>
    (readToken l).bind (fun p =>
      (readTokens count p.2).map (fun q => (p.1 :: q.1, q.2)))

/-- Modelled from the spec: serialization of a `Delta`
(`impl From<Delta> for Bytes`, src/delta.rs): the ordered token sequence
with array framing (§6). -/
def Delta.toBytes (d : Delta) : List Nat :=
  encodeU64 d.content.length ++ (d.content.map encodeToken).flatten

/-- Modelled from the spec: deserialization of a `Delta`
(`impl From<Bytes> for Delta`, src/delta.rs); `none` is a decoding error
(the source `expect`s on it, which panics). -/
def Delta.fromBytes (l : List Nat) : Option Delta :=
  (readU64 l).bind (fun p =>
    (readTokens p.1 p.2).bind (fun q =>
      if q.2 = [] then some ⟨q.1⟩ else none))

/-- Well-formedness of a token for serialization: a `BlockIndex` carries a
`usize` and a `ByteLiteral` carries one byte. -/
def tokenWF : Token → Bool
  | Token.BlockIndex index => index < 18446744073709551616
  | Token.ByteLiteral byte => byte < 256

/-- An abstract file system for the CLI model: what each path holds
(`none`: reading that path fails with an I/O error) and whether writing to
a path succeeds. -/
structure FileSystem where
  readFile : Nat → Option Bytes
  writeOk : Nat → Bool

/-- Exit code of the process for the `signature` subcommand
(`handle_signature_command`, src/main.rs, lines 125-145): on a read
failure the handler prints the error and calls `std::process::exit(0)`;
otherwise it computes the signature, serializes and writes it; a write
failure propagates as `Err` out of `main`, which exits with code 1. -/
def handle_signature_command (fs : FileSystem)
    (basis_filename signature_output_filename chunk_size : Nat) : Nat :=
  match fs.readFile basis_filename with
  | none => 0
  | some basis_file_bytes =>
    let signature := compute_signature basis_file_bytes chunk_size
    let _signature_bytes := FileSignature.toBytes signature
    if fs.writeOk signature_output_filename then 0 else 1

/-- Exit code of the process for the `delta` subcommand
(`handle_delta_command`, src/main.rs, lines 147-178): read failures print
and `std::process::exit(0)`; a signature decoding failure propagates as
`Err` (exit 1); a panic inside the delta computation aborts the process
(exit 101); a write failure is `Err` (exit 1). -/
def handle_delta_command (fs : FileSystem)
    (signature_filename updated_filename delta_filename chunk_size : Nat) : Nat :=
  match fs.readFile signature_filename with
  | none => 0
  | some signature_file_bytes =>
    match fs.readFile updated_filename with
    | none => 0
    | some updated_file_bytes =>
      match FileSignature.fromBytes signature_file_bytes with
      | none => 1
      | some signature =>
        match compute_delta_to_our_file signature updated_file_bytes chunk_size with
        | none => 101
        | some _delta => if fs.writeOk delta_filename then 0 else 1

/-- Exit code of the process for the `patch` subcommand
(`handle_patch_command`, src/main.rs, lines 180-208): read failures print
and `std::process::exit(0)`; a delta decoding failure panics
(`expect`, exit 101); an out-of-range block index panics inside
`apply_delta` (exit 101); a write failure is `Err` (exit 1). -/
def handle_patch_command (fs : FileSystem)
    (basis_filename delta_filename recreated_filename chunk_size : Nat) : Nat :=
  match fs.readFile basis_filename with
  | none => 0
  | some basis_file_bytes =>
    match fs.readFile delta_filename with
    | none => 0
    | some delta_file_bytes =>
      match Delta.fromBytes delta_file_bytes with
      | none => 101
      | some delta =>
        match apply_delta basis_file_bytes delta chunk_size with
        | none => 101
        | some _recreated => if fs.writeOk recreated_filename then 0 else 1

/-! ## Basic properties of the modelled hashes -/

theorem calculate_strong_hash_append (l : List Nat) (b : Nat) :
    calculate_strong_hash (l ++ [b]) = calculate_strong_hash l * 257 + b + 1 := by
  simp [calculate_strong_hash, List.foldl_append]

/-- The modelled strong hash is injective on byte strings, realizing the
spec's contract that a strong-hash match identifies the bytes. -/
theorem calculate_strong_hash_inj (l1 l2 : List Nat)
    (h1 : ∀ b ∈ l1, b < 256) (h2 : ∀ b ∈ l2, b < 256)
    (heq : calculate_strong_hash l1 = calculate_strong_hash l2) : l1 = l2 := by
  induction l1 using List.reverseRecOn generalizing l2 with
  | nil =>
    induction l2 using List.reverseRecOn with
    | nil => rfl
    | append_singleton l b _ =>
      rw [calculate_strong_hash_append] at heq
      simp [calculate_strong_hash] at heq
  | append_singleton l1 b1 ih =>
    induction l2 using List.reverseRecOn with
    | nil =>
      rw [calculate_strong_hash_append] at heq
      simp [calculate_strong_hash] at heq
    | append_singleton l2 b2 _ =>
      rw [calculate_strong_hash_append, calculate_strong_hash_append] at heq
      have hb1 : b1 < 256 := h1 b1 (by simp)
      have hb2 : b2 < 256 := h2 b2 (by simp)
      have hvals : calculate_strong_hash l1 = calculate_strong_hash l2 ∧ b1 = b2 := by
        constructor <;> omega
      have hl : l1 = l2 :=
        ih l2 (fun b hb => h1 b (by simp [hb])) (fun b hb => h2 b (by simp [hb])) hvals.1
      rw [hl, hvals.2]

theorem polyHash_append (l : List Nat) (c : Nat) :
    polyHash (l ++ [c]) = polyHash l * rollingBase + c := by
  simp [polyHash, List.foldl_append]

/-- The modelled rolling hash is injective on equal-length windows of
Unicode scalar values. -/
theorem polyHash_inj_of_length (l1 l2 : List Nat) (hlen : l1.length = l2.length)
    (h1 : ∀ c ∈ l1, c < rollingBase) (h2 : ∀ c ∈ l2, c < rollingBase)
    (heq : polyHash l1 = polyHash l2) : l1 = l2 := by
  induction l1 using List.reverseRecOn generalizing l2 with
  | nil =>
    cases l2 using List.reverseRecOn with
    | nil => rfl
    | append_singleton l b => simp at hlen
  | append_singleton l1 c1 ih =>
    cases l2 using List.reverseRecOn with
    | nil => simp at hlen
    | append_singleton l2 c2 =>
      rw [polyHash_append, polyHash_append] at heq
      have hc1 : c1 < rollingBase := h1 c1 (by simp)
      have hc2 : c2 < rollingBase := h2 c2 (by simp)
      simp only [rollingBase] at hc1 hc2 heq
      have hvals : polyHash l1 = polyHash l2 ∧ c1 = c2 := by
        constructor <;> omega
      have hlen2 : l1.length = l2.length := by simp at hlen; omega
      have hl : l1 = l2 :=
        ih l2 hlen2 (fun c hc => h1 c (by simp [hc])) (fun c hc => h2 c (by simp [hc]))
          hvals.1
      rw [hl, hvals.2]

/-- On ASCII input, lossy UTF-8 decoding is the identity: each byte is its
own character. -/
theorem utf8LossyChars_ascii (l : List Nat) (h : ∀ b ∈ l, b < 128) :
    utf8LossyChars l = l := by
  induction l with
  | nil => rw [utf8LossyChars.eq_def]
  | cons b rest ih =>
    have hb : b < 128 := h b (by simp)
    rw [utf8LossyChars.eq_def]
    simp only [if_pos hb]
    rw [ih (fun x hx => h x (by simp [hx]))]

/-! ## Properties of chunking and windows -/

theorem chunksList_length (chunk_size : Nat) (hB : 1 ≤ chunk_size) :
    ∀ l : List Nat,
      (chunksList chunk_size l).length = (l.length + chunk_size - 1) / chunk_size
  | [] => by
    rw [chunksList]
    simp [Nat.div_eq_of_lt (by omega : chunk_size - 1 < chunk_size)]
  | b :: rest => by
    rw [chunksList]
    have ih := chunksList_length chunk_size hB (rest.drop (chunk_size - 1))
    simp only [List.length_cons, List.length_drop] at ih ⊢
    rw [ih]
    rcases Nat.lt_or_ge rest.length (chunk_size - 1) with hlt | hge
    · have h1 : rest.length - (chunk_size - 1) = 0 := by omega
      rw [h1]
      have h2 : (0 + chunk_size - 1) / chunk_size = 0 :=
        Nat.div_eq_of_lt (by omega)
      have h3 : (rest.length + 1 + chunk_size - 1) / chunk_size = 1 := by
        apply Nat.div_eq_of_lt_le <;> omega
      omega
    · have h1 : rest.length - (chunk_size - 1) + chunk_size - 1 = rest.length := by
        omega
      have h2 : rest.length + 1 + chunk_size - 1 = rest.length + chunk_size := by
        omega
      rw [h1, h2, Nat.add_div_right _ (by omega)]
  termination_by l => l.length
  decreasing_by simp_arith [List.length_drop]

theorem chunksList_join (chunk_size : Nat) :
    ∀ l : List Nat, (chunksList chunk_size l).flatten = l
  | [] => by rw [chunksList]; rfl
  | b :: rest => by
    rw [chunksList]
    have ih := chunksList_join chunk_size (rest.drop (chunk_size - 1))
    simp [ih]
  termination_by l => l.length
  decreasing_by simp_arith [List.length_drop]

theorem mem_of_mem_chunksList {chunk_size : Nat} {l c : List Nat} {x : Nat}
    (hc : c ∈ chunksList chunk_size l) (hx : x ∈ c) : x ∈ l := by
  have h : x ∈ (chunksList chunk_size l).flatten := List.mem_flatten.mpr ⟨c, hc, hx⟩
  rwa [chunksList_join] at h

theorem chunksList_get (chunk_size : Nat) (hB : 1 ≤ chunk_size) :
    ∀ (l : List Nat) (j : Nat), j * chunk_size < l.length →
      (chunksList chunk_size l).get? j = some ((l.drop (j * chunk_size)).take chunk_size)
  | [], j, h => by simp at h
  | b :: rest, 0, h => by
    rw [chunksList]
    simp [List.take_cons, Nat.sub_add_cancel hB]
    cases chunk_size with
    | zero => omega
    | succ n => simp
  | b :: rest, j + 1, h => by
    rw [chunksList]
    have hsm : (j + 1) * chunk_size = j * chunk_size + chunk_size := by ring
    have hlen : j * chunk_size < (rest.drop (chunk_size - 1)).length := by
      simp only [List.length_cons] at h
      simp only [List.length_drop]
      omega
    have ih := chunksList_get chunk_size hB (rest.drop (chunk_size - 1)) j hlen
    simp only [List.get?_cons_succ, ih, List.drop_drop]
    have harith : chunk_size - 1 + j * chunk_size = (j + 1) * chunk_size - 1 := by
      omega
    rw [harith]
    obtain ⟨m, hm⟩ : ∃ m, (j + 1) * chunk_size = m + 1 := ⟨(j + 1) * chunk_size - 1, by omega⟩
    rw [hm]
    simp [List.drop_succ_cons]
  termination_by l => l.length
  decreasing_by simp_arith [List.length_drop]

theorem chunksList_length_eq_of_dvd (chunk_size : Nat) (hB : 1 ≤ chunk_size) :
    ∀ l : List Nat, chunk_size ∣ l.length →
      ∀ c ∈ chunksList chunk_size l, c.length = chunk_size
  | [], _, c, hc => by rw [chunksList] at hc; simp at hc
  | b :: rest, hdvd, c, hc => by
    rw [chunksList] at hc
    rcases hdvd with ⟨k, hk⟩
    simp only [List.length_cons] at hk
    obtain ⟨k2, rfl⟩ : ∃ k2, k = k2 + 1 := by
      refine ⟨k - 1, ?_⟩
      rcases Nat.eq_zero_or_pos k with h0 | hpos
      · rw [h0, Nat.mul_zero] at hk; omega
      · omega
    have hms : chunk_size * (k2 + 1) = chunk_size * k2 + chunk_size := Nat.mul_succ _ _
    have hge : chunk_size ≤ rest.length + 1 := by omega
    rcases List.mem_cons.mp hc with hhead | htail
    · rw [hhead]
      simp only [List.length_cons, List.length_take]
      omega
    · have hdvd2 : chunk_size ∣ (rest.drop (chunk_size - 1)).length := by
        refine ⟨k2, ?_⟩
        simp only [List.length_drop]
        omega
      exact chunksList_length_eq_of_dvd chunk_size hB (rest.drop (chunk_size - 1)) hdvd2 c htail
  termination_by l => l.length
  decreasing_by simp_arith [List.length_drop]

/-! ## Characterization of the rolling-hash index map -/

theorem buildHMFrom_lookup :
    ∀ (l : List Nat) (i : Nat) (m : Nat → Option Nat) (q : Nat),
      buildHMFrom i m l q =
        match lastIdx q l with
        | some k => some (i + k)
        | none => m q
  | [], i, m, q => by simp [buildHMFrom, lastIdx]
  | h :: rest, i, m, q => by
    rw [buildHMFrom, lastIdx]
    rw [buildHMFrom_lookup rest (i + 1) (insertHM m h i) q]
    cases hrec : lastIdx q rest with
    | some k => simp [Nat.add_assoc, Nat.add_comm 1 k]
    | none =>
      simp only [insertHM]
      by_cases hq : h = q
      · simp [hq]
      · have hq2 : ¬ q = h := fun h2 => hq h2.symm
        simp [hq, hq2]

theorem build_their_rolling_hashes_eq (hs : List Nat) (q : Nat) :
    build_their_rolling_hashes hs q = lastIdx q hs := by
  rw [build_their_rolling_hashes, buildHMFrom_lookup]
  cases lastIdx q hs with
  | none => rfl
  | some k => simp

theorem lastIdx_lt_length {q : Nat} :
    ∀ {l : List Nat} {k : Nat}, lastIdx q l = some k → k < l.length := by
  intro l
  induction l with
  | nil => intro k h; simp [lastIdx] at h
  | cons b rest ih =>
    intro k h
    rw [lastIdx] at h
    cases hrec : lastIdx q rest with
    | some k2 =>
      rw [hrec] at h
      have := ih hrec
      simp at h
      simp [← h]
      omega
    | none =>
      rw [hrec] at h
      by_cases hb : b = q
      · simp [hb] at h
        simp [← h]
      · simp [hb] at h

theorem lastIdx_get {q : Nat} :
    ∀ {l : List Nat} {k : Nat}, lastIdx q l = some k → l.get? k = some q := by
  intro l
  induction l with
  | nil => intro k h; simp [lastIdx] at h
  | cons b rest ih =>
    intro k h
    rw [lastIdx] at h
    cases hrec : lastIdx q rest with
    | some k2 =>
      rw [hrec] at h
      simp at h
      rw [← h]
      simpa using ih hrec
    | none =>
      rw [hrec] at h
      by_cases hb : b = q
      · simp [hb] at h
        simp [← h, hb]
      · simp [hb] at h

theorem lastIdx_none_not_mem {q : Nat} :
    ∀ {l : List Nat}, lastIdx q l = none → q ∉ l := by
  intro l
  induction l with
  | nil => intro _ h; simp at h
  | cons b rest ih =>
    intro h hmem
    rw [lastIdx] at h
    cases hrec : lastIdx q rest with
    | some k => rw [hrec] at h; simp at h
    | none =>
      rw [hrec] at h
      by_cases hb : b = q
      · simp [hb] at h
      · rcases List.mem_cons.mp hmem with h1 | h2
        · exact hb h1.symm
        · exact ih hrec h2

theorem lastIdx_last {q : Nat} :
    ∀ {l : List Nat} {k : Nat}, lastIdx q l = some k →
      ∀ j, k < j → l.get? j ≠ some q := by
  intro l
  induction l with
  | nil => intro k h; simp [lastIdx] at h
  | cons b rest ih =>
    intro k h j hkj
    rw [lastIdx] at h
    cases hrec : lastIdx q rest with
    | some k2 =>
      rw [hrec] at h
      simp at h
      cases j with
      | zero => omega
      | succ j2 =>
        simp only [List.get?_cons_succ]
        exact ih hrec j2 (by omega)
    | none =>
      rw [hrec] at h
      by_cases hb : b = q
      · simp [hb] at h
        cases j with
        | zero => omega
        | succ j2 =>
          simp only [List.get?_cons_succ]
          intro hcontra
          have : lastIdx q rest ≠ none := by
            intro hn
            have hmem : q ∈ rest := List.get?_mem hcontra
            have := lastIdx_none_not_mem hn
            exact this hmem
          exact this hrec
      · simp [hb] at h

theorem lastIdx_isSome_of_mem {q : Nat} {l : List Nat} (h : q ∈ l) :
    ∃ k, lastIdx q l = some k := by
  cases hl : lastIdx q l with
  | none => exact absurd h (lastIdx_none_not_mem hl)
  | some k => exact ⟨k, rfl⟩

/-! ## Properties of the sliding windows and the precomputed hash vector -/

theorem windowsList_length (size : Nat) (hs : 1 ≤ size) :
    ∀ l : List Nat, (windowsList size l).length = l.length + 1 - size := by
  intro l
  induction l with
  | nil => simp [windowsList]; omega
  | cons b rest ih =>
    rw [windowsList]
    by_cases hlen : rest.length + 1 < size
    · simp only [if_pos hlen, List.length_nil, List.length_cons]
      omega
    · simp only [if_neg hlen, List.length_cons, ih]
      omega

theorem windowsList_ne_nil (size : Nat) :
    ∀ l : List Nat, ∀ w ∈ windowsList size l, w ≠ [] := by
  intro l
  induction l with
  | nil => simp [windowsList]
  | cons b rest ih =>
    rw [windowsList]
    by_cases hlen : rest.length + 1 < size
    · simp [if_pos hlen]
    · simp only [if_neg hlen]
      intro w hw
      rcases List.mem_cons.mp hw with hhead | htail
      · rw [hhead]; simp
      · exact ih w htail

theorem windowsList_cons_of_le (size : Nat) (b : Nat) (rest : List Nat)
    (h : size ≤ rest.length + 1) :
    windowsList size (b :: rest) = (b :: rest.take (size - 1)) :: windowsList size rest := by
  rw [windowsList]
  simp [if_neg (by omega : ¬ rest.length + 1 < size)]

theorem mapM_getLast_of_ne_nil :
    ∀ ws : List (List Nat), (∀ w ∈ ws, w ≠ []) →
      ∃ lasts : List Nat, ws.mapM List.getLast? = some lasts ∧ lasts.length = ws.length := by
  intro ws
  induction ws with
  | nil => intro _; exact ⟨[], rfl, rfl⟩
  | cons w rest ih =>
    intro h
    obtain ⟨lasts, hl, hlen⟩ := ih (fun x hx => h x (by simp [hx]))
    have hw : w ≠ [] := h w (by simp)
    obtain ⟨v, hv⟩ : ∃ v, w.getLast? = some v := by
      cases hg : w.getLast? with
      | none => exact absurd (List.getLast?_eq_none_iff.mp hg) hw
      | some v => exact ⟨v, rfl⟩
    refine ⟨v :: lasts, ?_, by simp [hlen]⟩
    rw [List.mapM_cons, hv, hl]
    rfl

theorem slidingHashesFrom_length (hasher : RollingHash) :
    ∀ lastBytes : List Nat, (slidingHashesFrom hasher lastBytes).length
      = lastBytes.length + 1 := by
  intro lastBytes
  induction lastBytes generalizing hasher with
  | nil => simp [slidingHashesFrom]
  | cons nb rest ih => simp [slidingHashesFrom, ih]

/-- The hash-vector computation is total and the vector has one entry per
window position (`|Y| + 1 - B` of them, zero when `B > |Y|`). -/
theorem compute_rolling_hashes_isSome (Y : Bytes) (B : Nat) (hB : 1 ≤ B) :
    ∃ rh : List Nat, compute_rolling_hashes Y B = some rh
      ∧ rh.length = Y.length + 1 - B := by
  rw [compute_rolling_hashes]
  by_cases hle : B ≤ Y.length
  · rw [if_pos hle]
    have hne : windowsList B Y ≠ [] := by
      intro hnil
      have := windowsList_length B hB Y
      rw [hnil] at this
      simp at this
      omega
    cases hw : windowsList B Y with
    | nil => exact absurd hw hne
    | cons first laterWindows =>
      obtain ⟨lasts, hl, hlen⟩ := mapM_getLast_of_ne_nil laterWindows
        (fun w hw2 => windowsList_ne_nil B Y w (by rw [hw]; simp [hw2]))
      dsimp only
      rw [hl]
      refine ⟨_, rfl, ?_⟩
      rw [slidingHashesFrom_length, hlen]
      have hwl := windowsList_length B hB Y
      rw [hw] at hwl
      simp only [List.length_cons] at hwl
      omega
  · rw [if_neg hle]
    refine ⟨[], rfl, ?_⟩
    simp only [List.length_nil]
    omega

/-! ## Properties of the patcher loop -/

theorem apply_tokens_literal (blocks : List (List Nat)) (b : Nat) (ts : List Token)
    (acc : List Nat) :
    apply_tokens blocks (Token.ByteLiteral b :: ts) acc
      = apply_tokens blocks ts (acc ++ [b]) := rfl

theorem apply_tokens_oob {blocks : List (List Nat)} {k : Nat} :
    ∀ (ts : List Token) (acc : List Nat), Token.BlockIndex k ∈ ts →
      blocks.length ≤ k → apply_tokens blocks ts acc = none := by
  intro ts
  induction ts with
  | nil => intro acc h _; simp at h
  | cons t rest ih =>
    intro acc hmem hk
    cases t with
    | BlockIndex i =>
      rw [apply_tokens]
      cases hget : blocks.get? i with
      | none => rfl
      | some block =>
        have hi : i < blocks.length := by
          by_contra hcon
          rw [List.get?_eq_none.mpr (by omega)] at hget
          exact Option.noConfusion hget
        have hkrest : Token.BlockIndex k ∈ rest := by
          rcases List.mem_cons.mp hmem with hhead | htail
          · have hki : k = i := by simpa using hhead
            omega
          · exact htail
        exact ih _ hkrest hk
    | ByteLiteral b =>
      rw [apply_tokens]
      have hkrest : Token.BlockIndex k ∈ rest := by
        rcases List.mem_cons.mp hmem with hhead | htail
        · exact Token.noConfusion hhead
        · exact htail
      exact ih _ hkrest hk

/-! ## The round-trip law -/

/-- Core invariant of the scanning loop: on any suffix of the updated file
(with the hash-vector suffix long enough, as it is for the vector the
delta builder precomputes), the loop succeeds and the emitted tokens
replay, through the patcher, exactly to the bytes of that suffix. -/
theorem delta_loop_roundtrip (X : Bytes) (B : Nat) (hB : 1 ≤ B)
    (hX : ∀ b ∈ X, b < 256) :
    ∀ (u' rh' : List Nat), (∀ b ∈ u', b < 256) →
      u'.length + 1 ≤ rh'.length + B →
      ∃ ts : List Token,
        delta_loop (compute_signature X B)
          (build_their_rolling_hashes (compute_signature X B).rolling_hashes)
          B u' rh' = some ts ∧
        ∀ acc : List Nat,
          apply_tokens (chunksList B X) ts acc = some (acc ++ u')
  | [], rh', _, _ =>
    ⟨[], by rw [delta_loop.eq_def], fun acc => by rw [apply_tokens]; simp⟩
  | b :: rest, rh', hu, hsync => by
    rw [delta_loop.eq_def]
    dsimp only
    by_cases htrail : rest.length + 1 < B
    · obtain ⟨ts, hts, happ⟩ := delta_loop_roundtrip X B hB hX rest rh'.tail
        (fun x hx => hu x (by simp [hx]))
        (by simp only [List.length_tail]; omega)
      refine ⟨Token.ByteLiteral b :: ts, ?_, ?_⟩
      · rw [if_pos htrail, hts]; rfl
      · intro acc
        rw [apply_tokens_literal, happ]
        simp
    · rw [if_neg htrail]
      cases rh' with
      | nil =>
        exfalso
        simp only [List.length_nil, List.length_cons] at hsync
        omega
      | cons rh rhrest =>
        cases hlook : build_their_rolling_hashes
            (compute_signature X B).rolling_hashes rh with
        | none =>
          obtain ⟨ts, hts, happ⟩ := delta_loop_roundtrip X B hB hX rest rhrest
            (fun x hx => hu x (by simp [hx]))
            (by simp only [List.length_cons] at hsync; omega)
          refine ⟨Token.ByteLiteral b :: ts, ?_, ?_⟩
          · dsimp only
            rw [hlook, hts]
            rfl
          · intro acc
            rw [apply_tokens_literal, happ]
            simp
        | some k =>
          have hklt : k < (compute_signature X B).rolling_hashes.length := by
            rw [build_their_rolling_hashes_eq] at hlook
            exact lastIdx_lt_length hlook
          obtain ⟨blk, hblk⟩ : ∃ blk, (chunksList B X).get? k = some blk := by
            have hkchunks : k < (chunksList B X).length := by
              simpa [compute_signature] using hklt
            exact ⟨_, List.get?_eq_get hkchunks⟩
          have hstrong : (compute_signature X B).strong_hashes.get? k
              = some (calculate_strong_hash blk) := by
            show ((chunksList B X).map calculate_strong_hash).get? k = _
            rw [List.get?_map, hblk]
            rfl
          dsimp only
          rw [hlook]
          dsimp only
          rw [hstrong]
          dsimp only
          by_cases hmatch : calculate_strong_hash (b :: rest.take (B - 1))
              = calculate_strong_hash blk
          · rw [if_pos hmatch]
            have hblkmem : blk ∈ chunksList B X := List.get?_mem hblk
            have hwin : (b :: rest.take (B - 1)) = blk :=
              calculate_strong_hash_inj _ _
                (by
                  intro x hx
                  rcases List.mem_cons.mp hx with h1 | h2
                  · exact h1 ▸ hu b (by simp)
                  · exact hu x (by simp [List.mem_of_mem_take h2]))
                (fun x hx => hX x (mem_of_mem_chunksList hblkmem hx))
                hmatch
            obtain ⟨ts, hts, happ⟩ := delta_loop_roundtrip X B hB hX
              (rest.drop (B - 1)) ((rh :: rhrest).drop B)
              (fun x hx => hu x (by simp [List.mem_of_mem_drop hx]))
              (by
                simp only [List.length_drop, List.length_cons] at hsync ⊢
                omega)
            refine ⟨Token.BlockIndex k :: ts, ?_, ?_⟩
            · rw [hts]
              rfl
            · intro acc
              rw [apply_tokens, hblk]
              dsimp only
              rw [happ]
              rw [← hwin]
              simp [List.append_assoc, List.take_append_drop]
          · rw [if_neg hmatch]
            obtain ⟨ts, hts, happ⟩ := delta_loop_roundtrip X B hB hX rest rhrest
              (fun x hx => hu x (by simp [hx]))
              (by simp only [List.length_cons] at hsync; omega)
            refine ⟨Token.ByteLiteral b :: ts, ?_, ?_⟩
            · rw [hts]
              rfl
            · intro acc
              rw [apply_tokens_literal, happ]
              simp
  termination_by u' => u'.length
  decreasing_by all_goals simp_arith [List.length_drop]

/-- C1: for every basis `X`, updated file `Y` and chunk size `B ≥ 1`,
patching `X` with the delta computed from `signature(X, B)` and `Y`
reconstructs `Y` exactly:
`apply_delta(X, compute_delta_to_our_file(compute_signature(X, B), Y, B), B) = Y`
(with the modelled strong hash, whose matches identify the bytes as the
spec demands). -/
theorem round_trip_law (X Y : Bytes) (B : Nat) (hB : 1 ≤ B)
    (hX : ∀ b ∈ X, b < 256) (hY : ∀ b ∈ Y, b < 256) :
    (compute_delta_to_our_file (compute_signature X B) Y B).bind
      (fun d => apply_delta X d B) = some Y := by
  obtain ⟨rh, hrh, hlen⟩ := compute_rolling_hashes_isSome Y B hB
  obtain ⟨ts, hts, happ⟩ := delta_loop_roundtrip X B hB hX Y rh hY (by omega)
  rw [compute_delta_to_our_file, hrh]
  dsimp only [Option.bind]
  rw [hts]
  dsimp only [Option.map]
  rw [apply_delta]
  rw [happ]
  simp

/-- Witness for C1 at a concrete basis, updated file and chunk size. -/
theorem round_trip_law_witness :
    (compute_delta_to_our_file (compute_signature [1, 2, 3, 4] 2) [9, 1, 2, 3, 4, 7] 2).bind
      (fun d => apply_delta [1, 2, 3, 4] d 2) = some [9, 1, 2, 3, 4, 7] :=
  round_trip_law [1, 2, 3, 4] [9, 1, 2, 3, 4, 7] 2 (by decide) (by decide) (by decide)

/-- C2: the patcher refuses a delta containing a `BlockIndex(k)` with `k`
at least the number of basis chunks `⌈|X|/B⌉`: applying it is a fatal
error (`none` models the panic of the `unwrap` in src/patch.rs, aborting
the patch invocation rather than producing output). -/
theorem patcher_refuses_out_of_range (X : Bytes) (d : Delta) (B k : Nat)
    (hB : 1 ≤ B) (hmem : Token.BlockIndex k ∈ d.content)
    (hk : (X.length + B - 1) / B ≤ k) :
    apply_delta X d B = none := by
  rw [apply_delta]
  apply apply_tokens_oob d.content [] hmem
  rw [chunksList_length B hB]
  exact hk

/-- Witness for C2 at a concrete basis, delta and chunk size. -/
theorem patcher_refuses_out_of_range_witness :
    apply_delta [10, 20] (Delta.mk [Token.BlockIndex 5]) 1 = none :=
  patcher_refuses_out_of_range [10, 20] (Delta.mk [Token.BlockIndex 5]) 1 5
    (by decide) (by decide) (by decide)

/-- The scanning loop emits one `ByteLiteral` per byte when fewer than
`chunk_size` bytes remain, whatever the signature and hash vector. -/
theorem delta_loop_small (S : FileSignature) (their : Nat → Option Nat) (B : Nat) :
    ∀ (u' rh' : List Nat), u'.length < B →
      delta_loop S their B u' rh' = some (u'.map Token.ByteLiteral) := by
  intro u'
  induction u' with
  | nil =>
    intro rh' _
    rw [delta_loop.eq_def]
    rfl
  | cons b rest ih =>
    intro rh' h
    rw [delta_loop.eq_def]
    dsimp only
    rw [if_pos (by simp only [List.length_cons] at h; omega)]
    rw [ih rh'.tail (by simp only [List.length_cons] at h; omega)]
    rfl

/-- C6: for every signature `S` and chunk size `B > |Y|`, the sliding loop
is skipped (the precomputed hash vector is empty) and the delta is exactly
the bytes of `Y`, in order, as `ByteLiteral` tokens. -/
theorem delta_all_literals_for_big_chunk (S : FileSignature) (Y : Bytes) (B : Nat)
    (hB : 1 ≤ B) (hBY : Y.length < B) :
    compute_delta_to_our_file S Y B = some (Delta.mk (Y.map Token.ByteLiteral)) := by
  rw [compute_delta_to_our_file, compute_rolling_hashes]
  rw [if_neg (by omega)]
  dsimp only [Option.bind]
  rw [delta_loop_small S _ B Y [] hBY]
  rfl

/-- Witness for C6 at a concrete signature, updated file and chunk size. -/
theorem delta_all_literals_for_big_chunk_witness :
    compute_delta_to_our_file (FileSignature.mk [7] [8]) [5, 6] 5
      = some (Delta.mk [Token.ByteLiteral 5, Token.ByteLiteral 6]) :=
  delta_all_literals_for_big_chunk (FileSignature.mk [7] [8]) [5, 6] 5
    (by decide) (by decide)

theorem chunksList_singleton (B : Nat) (X : List Nat) (hne : X ≠ [])
    (hle : X.length ≤ B) : chunksList B X = [X] := by
  cases X with
  | nil => exact absurd rfl hne
  | cons b rest =>
    rw [chunksList]
    have h1 : rest.take (B - 1) = rest :=
      List.take_of_length_le (by simp only [List.length_cons] at hle; omega)
    have h2 : rest.drop (B - 1) = [] :=
      List.drop_eq_nil_of_le (by simp only [List.length_cons] at hle; omega)
    rw [h1, h2, chunksList]

/-- C7: the signature of a basis of length `N` with chunk size `B ≥ 1` has
strong and rolling vectors of equal length `⌈N/B⌉`; an empty basis yields
the empty signature, and `B > N > 0` yields exactly one entry covering the
whole basis. -/
theorem compute_signature_shape (X : Bytes) (B : Nat) (hB : 1 ≤ B) :
    (compute_signature X B).strong_hashes.length = (X.length + B - 1) / B ∧
    (compute_signature X B).rolling_hashes.length = (X.length + B - 1) / B ∧
    (X = [] → compute_signature X B = FileSignature.mk [] []) ∧
    (X ≠ [] → X.length < B →
      compute_signature X B
        = FileSignature.mk [calculate_strong_hash X] [polyHash (utf8LossyChars X)]) := by
  refine ⟨?_, ?_, ?_, ?_⟩
  · simp [compute_signature, chunksList_length B hB]
  · simp [compute_signature, chunksList_length B hB]
  · intro hnil
    rw [hnil]
    simp [compute_signature, chunksList]
  · intro hne hlt
    rw [compute_signature, chunksList_singleton B X hne (by omega)]
    rfl

/-- Witness for C7 at a concrete basis and chunk size. -/
theorem compute_signature_shape_witness :
    (compute_signature [1, 2, 3] 2).strong_hashes.length = (3 + 2 - 1) / 2 ∧
    (compute_signature [1, 2, 3] 2).rolling_hashes.length = (3 + 2 - 1) / 2 ∧
    ([1, 2, 3] = ([] : List Nat) → compute_signature [1, 2, 3] 2 = FileSignature.mk [] []) ∧
    (([1, 2, 3] : List Nat) ≠ [] → ([1, 2, 3] : List Nat).length < 2 →
      compute_signature [1, 2, 3] 2
        = FileSignature.mk [calculate_strong_hash [1, 2, 3]]
            [polyHash (utf8LossyChars [1, 2, 3])]) :=
  compute_signature_shape [1, 2, 3] 2 (by decide)

/-- C8: the candidate index built by the delta builder is a function of
the signature (hence deterministic), and it maps a rolling-hash value to
an index exactly when that index holds the value and no later index does:
the last insertion wins, i.e. the highest such index is stored. -/
theorem candidate_index_last_insertion_wins (hs : List Nat) (h k : Nat) :
    build_their_rolling_hashes hs h = some k ↔
      (hs.get? k = some h ∧ ∀ j, k < j → hs.get? j ≠ some h) := by
  rw [build_their_rolling_hashes_eq]
  constructor
  · intro hl
    exact ⟨lastIdx_get hl, lastIdx_last hl⟩
  · rintro ⟨hg, hlast⟩
    have hmem : h ∈ hs := List.get?_mem hg
    obtain ⟨k2, hk2⟩ := lastIdx_isSome_of_mem hmem
    have hg2 := lastIdx_get hk2
    have hlast2 := lastIdx_last hk2
    rcases Nat.lt_trichotomy k k2 with hlt | heq | hgt
    · exact absurd hg2 (hlast k2 hlt)
    · rw [hk2, heq]
    · exact absurd hg (hlast2 k hgt)

/-- Totality of the scanning loop for a well-formed signature (equal-length
hash vectors): no access performed by the loop can panic. -/
theorem delta_loop_total (S : FileSignature) (B : Nat)
    (hwf : S.strong_hashes.length = S.rolling_hashes.length) :
    ∀ (u' rh' : List Nat), u'.length + 1 ≤ rh'.length + B →
      ∃ ts : List Token,
        delta_loop S (build_their_rolling_hashes S.rolling_hashes) B u' rh' = some ts
  | [], rh', _ => ⟨[], by rw [delta_loop.eq_def]⟩
  | b :: rest, rh', hsync => by
    rw [delta_loop.eq_def]
    dsimp only
    by_cases htrail : rest.length + 1 < B
    · obtain ⟨ts, hts⟩ := delta_loop_total S B hwf rest rh'.tail
        (by simp only [List.length_tail]; omega)
      exact ⟨Token.ByteLiteral b :: ts, by rw [if_pos htrail, hts]; rfl⟩
    · rw [if_neg htrail]
      cases rh' with
      | nil =>
        exfalso
        simp only [List.length_nil, List.length_cons] at hsync
        omega
      | cons rh rhrest =>
        cases hlook : build_their_rolling_hashes S.rolling_hashes rh with
        | none =>
          obtain ⟨ts, hts⟩ := delta_loop_total S B hwf rest rhrest
            (by simp only [List.length_cons] at hsync; omega)
          refine ⟨Token.ByteLiteral b :: ts, ?_⟩
          dsimp only
          rw [hlook, hts]
          rfl
        | some k =>
          have hklt : k < S.rolling_hashes.length := by
            rw [build_their_rolling_hashes_eq] at hlook
            exact lastIdx_lt_length hlook
          obtain ⟨s, hs⟩ : ∃ s, S.strong_hashes.get? k = some s :=
            ⟨_, List.get?_eq_get (by omega)⟩
          dsimp only
          rw [hlook]
          dsimp only
          rw [hs]
          dsimp only
          by_cases hmatch : calculate_strong_hash (b :: rest.take (B - 1)) = s
          · rw [if_pos hmatch]
            obtain ⟨ts, hts⟩ := delta_loop_total S B hwf (rest.drop (B - 1))
              ((rh :: rhrest).drop B)
              (by simp only [List.length_drop, List.length_cons] at hsync ⊢; omega)
            exact ⟨Token.BlockIndex k :: ts, by rw [hts]; rfl⟩
          · rw [if_neg hmatch]
            obtain ⟨ts, hts⟩ := delta_loop_total S B hwf rest rhrest
              (by simp only [List.length_cons] at hsync; omega)
            exact ⟨Token.ByteLiteral b :: ts, by rw [hts]; rfl⟩
  termination_by u' => u'.length
  decreasing_by all_goals simp_arith [List.length_drop]

/-- C10 (amended): for every well-formed signature (equal-length strong and
rolling vectors, as every signature `compute_signature` produces), every
updated file and every chunk size `B ≥ 1`, `compute_delta_to_our_file` is
total: the first-window unwrap, the accesses into the precomputed hash
vector and the strong-hash slices are all in bounds.  (The signature
builder itself is total by construction in this model.) -/
theorem compute_delta_total_of_wellformed (S : FileSignature) (Y : Bytes) (B : Nat)
    (hB : 1 ≤ B) (hwf : S.strong_hashes.length = S.rolling_hashes.length) :
    ∃ d : Delta, compute_delta_to_our_file S Y B = some d := by
  obtain ⟨rh, hrh, hlen⟩ := compute_rolling_hashes_isSome Y B hB
  obtain ⟨ts, hts⟩ := delta_loop_total S B hwf Y rh (by omega)
  rw [compute_delta_to_our_file, hrh]
  dsimp only [Option.bind]
  rw [hts]
  exact ⟨Delta.mk ts, rfl⟩

/-- Witness for the amended C10 at a concrete signature, file and chunk
size. -/
theorem compute_delta_total_of_wellformed_witness :
    ∃ d : Delta, compute_delta_to_our_file (FileSignature.mk [3] [4]) [1, 2, 3] 2
      = some d :=
  compute_delta_total_of_wellformed (FileSignature.mk [3] [4]) [1, 2, 3] 2
    (by decide) (by decide)

/-- Counterexample to C10 as stated: for the ill-formed signature with no
strong hashes but one rolling hash (the rolling hash of the one-byte
window `[0]`), the delta builder's lookup
`signature.strong_hashes[matched_block_index]` is out of bounds, which
panics (`none`): the function is not total for every signature. -/
theorem compute_delta_panics_on_malformed_signature :
    compute_delta_to_our_file (FileSignature.mk [] [0]) [0] 1 = none := by
  simp [compute_delta_to_our_file, compute_rolling_hashes, windowsList,
    utf8LossyChars, slidingHashesFrom, RollingHash.from_initial_chars,
    RollingHash.get_current_hash, polyHash, rollingBase, delta_loop.eq_def,
    build_their_rolling_hashes, buildHMFrom, insertHM, calculate_strong_hash,
    List.mapM_nil, List.mapM, List.mapM.loop]

/-! ## The precomputed hash vector on ASCII input -/

theorem windowsList_nil_of_lt (size : Nat) (l : List Nat) (h : l.length < size) :
    windowsList size l = [] := by
  cases l with
  | nil => rfl
  | cons b rest =>
    rw [windowsList]
    rw [if_pos (by simpa using h)]

theorem windowsList_get (B : Nat) (hB : 1 ≤ B) :
    ∀ (l : List Nat) (i : Nat), i + B ≤ l.length →
      (windowsList B l).get? i = some ((l.drop i).take B) := by
  intro l
  induction l with
  | nil =>
    intro i h
    simp only [List.length_nil] at h
    omega
  | cons b rest ih =>
    intro i h
    rw [windowsList_cons_of_le B b rest
      (by simp only [List.length_cons] at h; omega)]
    cases i with
    | zero =>
      simp only [List.get?_cons_zero, List.drop_zero]
      obtain ⟨m, rfl⟩ : ∃ m, B = m + 1 := ⟨B - 1, by omega⟩
      simp [List.take_succ_cons]
    | succ i2 =>
      simp only [List.get?_cons_succ]
      rw [ih i2 (by simp only [List.length_cons] at h; omega)]
      simp [List.drop_succ_cons]

theorem windows_mapM_lasts (B : Nat) (hB : 1 ≤ B) :
    ∀ Y : List Nat, B ≤ Y.length →
      ((windowsList B Y).tail).mapM List.getLast? = some (Y.drop B) := by
  intro Y
  induction Y with
  | nil =>
    intro h
    simp only [List.length_nil] at h
    omega
  | cons b rest ih =>
    intro h
    rw [windowsList_cons_of_le B b rest
      (by simp only [List.length_cons] at h; omega)]
    simp only [List.tail_cons]
    by_cases hone : rest.length < B
    · have hwr : windowsList B rest = [] := windowsList_nil_of_lt B rest hone
      have hdrop : (b :: rest).drop B = [] :=
        List.drop_eq_nil_of_le (by simp only [List.length_cons] at h ⊢; omega)
      rw [hwr, hdrop]
      rfl
    · have hBr : B ≤ rest.length := by omega
      cases hw : windowsList B rest with
      | nil =>
        exfalso
        have := windowsList_length B hB rest
        rw [hw] at this
        simp only [List.length_nil] at this
        omega
      | cons w1 ws =>
        have hw1 : w1 = rest.take B := by
          have hg := windowsList_get B hB rest 0 (by omega)
          rw [hw] at hg
          simpa using hg
        have hlast1 : w1.getLast? = some (rest.get ⟨B - 1, by omega⟩) := by
          rw [hw1, List.getLast?_eq_getElem?]
          have hlen : (rest.take B).length = B := by
            simp only [List.length_take]
            omega
          rw [hlen]
          rw [List.getElem?_take, if_pos (by omega : B - 1 < B)]
          rw [List.getElem?_eq_getElem (by omega : B - 1 < rest.length)]
          rfl
        have hihres : ws.mapM List.getLast? = some (rest.drop B) := by
          have := ih hBr
          rw [hw] at this
          simpa using this
        rw [List.mapM_cons, hlast1, hihres]
        have hdropsucc : (b :: rest).drop B = rest.drop (B - 1) := by
          obtain ⟨m, rfl⟩ : ∃ m, B = m + 1 := ⟨B - 1, by omega⟩
          simp [List.drop_succ_cons]
        rw [hdropsucc, List.drop_eq_getElem_cons (by omega : B - 1 < rest.length)]
        have harith : B - 1 + 1 = B := by omega
        rw [harith]
        rfl

theorem slidingHashesFrom_windows (B : Nat) (hB : 1 ≤ B) :
    ∀ Y : List Nat, B ≤ Y.length →
      slidingHashesFrom (RollingHash.mk (Y.take B)) (Y.drop B)
        = (windowsList B Y).map polyHash := by
  intro Y
  induction Y with
  | nil =>
    intro h
    simp only [List.length_nil] at h
    omega
  | cons b rest ih =>
    intro h
    rw [windowsList_cons_of_le B b rest
      (by simp only [List.length_cons] at h; omega)]
    obtain ⟨m, rfl⟩ : ∃ m, B = m + 1 := ⟨B - 1, by omega⟩
    by_cases hone : rest.length < m + 1
    · have hwr : windowsList (m + 1) rest = [] := windowsList_nil_of_lt (m + 1) rest hone
      have hdrop : (b :: rest).drop (m + 1) = [] :=
        List.drop_eq_nil_of_le (by simp only [List.length_cons] at h ⊢; omega)
      rw [hwr, hdrop, slidingHashesFrom]
      simp [RollingHash.get_current_hash, List.take_succ_cons]
    · have hBr : m + 1 ≤ rest.length := by omega
      have hmlt : m < rest.length := by omega
      have hdrop : (b :: rest).drop (m + 1)
          = rest.get ⟨m, hmlt⟩ :: rest.drop (m + 1) := by
        rw [List.drop_succ_cons, List.drop_eq_getElem_cons hmlt]
        rfl
      rw [hdrop, slidingHashesFrom]
      have hstate : ((RollingHash.mk ((b :: rest).take (m + 1))).pop_front).push_back
            (rest.get ⟨m, hmlt⟩) = RollingHash.mk (rest.take (m + 1)) := by
        have hts : rest.take (m + 1) = rest.take m ++ [rest.get ⟨m, hmlt⟩] := by
          rw [List.take_succ, List.getElem?_eq_getElem hmlt]
          rfl
        simp only [RollingHash.pop_front, RollingHash.push_back]
        rw [List.take_succ_cons, List.tail_cons, hts]
      rw [hstate, ih hBr]
      simp [RollingHash.get_current_hash, List.take_succ_cons]

/-- On ASCII input with `B ≤ |Y|`, the precomputed vector holds exactly the
polynomial hash of each raw-byte window. -/
theorem compute_rolling_hashes_ascii (Y : Bytes) (B : Nat) (hB : 1 ≤ B)
    (hBle : B ≤ Y.length) (hY : ∀ b ∈ Y, b < 128) :
    compute_rolling_hashes Y B = some ((windowsList B Y).map polyHash) := by
  rw [compute_rolling_hashes, if_pos hBle]
  cases hw : windowsList B Y with
  | nil =>
    exfalso
    have := windowsList_length B hB Y
    rw [hw] at this
    simp only [List.length_nil] at this
    omega
  | cons first later =>
    have hfirst : first = Y.take B := by
      have hg := windowsList_get B hB Y 0 (by omega)
      rw [hw] at hg
      simpa using hg
    subst hfirst
    have hlasts : later.mapM List.getLast? = some (Y.drop B) := by
      have hml := windows_mapM_lasts B hB Y hBle
      rw [hw] at hml
      simpa using hml
    dsimp only
    rw [hlasts]
    have hlossy : utf8LossyChars (Y.take B) = Y.take B := by
      apply utf8LossyChars_ascii
      intro x hx
      exact hY x (List.mem_of_mem_take hx)
    dsimp only [Option.map]
    rw [RollingHash.from_initial_chars, hlossy]
    have hchain := slidingHashesFrom_windows B hB Y hBle
    rw [hw] at hchain
    exact congrArg some hchain

/-- On an ASCII basis whose length the chunk size divides, the scanning
loop started at any chunk-aligned position of the basis itself emits only
`BlockIndex` tokens. -/
theorem delta_loop_aligned (X : Bytes) (B : Nat) (hB : 1 ≤ B)
    (hX : ∀ b ∈ X, b < 128) (hdvd : B ∣ X.length) :
    ∀ (u' rh' : List Nat) (i : Nat), u' = X.drop i →
      rh' = ((windowsList B X).map polyHash).drop i → B ∣ i →
      ∃ ts : List Token,
        delta_loop (compute_signature X B)
          (build_their_rolling_hashes (compute_signature X B).rolling_hashes)
          B u' rh' = some ts ∧
        ∀ t ∈ ts, ∃ k, t = Token.BlockIndex k
  | [], rh', i, hu, hrh, hdvdi =>
    ⟨[], by rw [delta_loop.eq_def], by simp⟩
  | b :: rest, rh', i, hu, hrh, hdvdi => by
    subst hrh
    have hilt : i < X.length := by
      by_contra hcon
      rw [List.drop_eq_nil_of_le (by omega)] at hu
      exact List.noConfusion hu
    have hrem : B ∣ (X.length - i) := Nat.dvd_sub' hdvd hdvdi
    have hremlen : X.length - i = rest.length + 1 := by
      have hlen := congrArg List.length hu
      simp only [List.length_cons, List.length_drop] at hlen
      omega
    have hBle : B ≤ rest.length + 1 := by
      rw [← hremlen]
      exact Nat.le_of_dvd (by omega) hrem
    have hiB : i + B ≤ X.length := by omega
    rw [delta_loop.eq_def]
    dsimp only
    rw [if_neg (by omega)]
    have hwlen : ((windowsList B X).map polyHash).length = X.length + 1 - B := by
      simp [windowsList_length B hB]
    have hiw : i < ((windowsList B X).map polyHash).length := by omega
    rw [List.drop_eq_getElem_cons hiw]
    dsimp only
    have hval : ((windowsList B X).map polyHash)[i] = polyHash ((X.drop i).take B) := by
      have h2 : ((windowsList B X).map polyHash).get? i
          = some (polyHash ((X.drop i).take B)) := by
        rw [List.get?_map, windowsList_get B hB X i (by omega)]
        rfl
      rw [List.get?_eq_getElem?, List.getElem?_eq_getElem hiw] at h2
      exact Option.some.inj h2
    rw [hval]
    have hjmul : i / B * B = i := Nat.div_mul_cancel hdvdi
    have hj : (chunksList B X).get? (i / B) = some ((X.drop i).take B) := by
      have := chunksList_get B hB X (i / B) (by rw [hjmul]; omega)
      rwa [hjmul] at this
    have hroll : (compute_signature X B).rolling_hashes = (chunksList B X).map polyHash := by
      rw [compute_signature]
      dsimp only
      apply List.map_congr_left
      intro c hc
      show polyHash (utf8LossyChars c) = polyHash c
      rw [utf8LossyChars_ascii c (fun x hx => hX x (mem_of_mem_chunksList hc hx))]
    have hmem : polyHash ((X.drop i).take B) ∈ (compute_signature X B).rolling_hashes := by
      rw [hroll]
      apply List.get?_mem (n := i / B)
      rw [List.get?_map, hj]
      rfl
    obtain ⟨k, hk⟩ : ∃ k, build_their_rolling_hashes
        (compute_signature X B).rolling_hashes (polyHash ((X.drop i).take B)) = some k := by
      rw [build_their_rolling_hashes_eq]
      exact lastIdx_isSome_of_mem hmem
    have hkget : (compute_signature X B).rolling_hashes.get? k
        = some (polyHash ((X.drop i).take B)) := by
      rw [build_their_rolling_hashes_eq] at hk
      exact lastIdx_get hk
    have hklt : k < (chunksList B X).length := by
      rw [build_their_rolling_hashes_eq] at hk
      have := lastIdx_lt_length hk
      simpa [compute_signature] using this
    obtain ⟨blkk, hblkk⟩ : ∃ blk, (chunksList B X).get? k = some blk :=
      ⟨_, List.get?_eq_get hklt⟩
    have hpoly_k : polyHash blkk = polyHash ((X.drop i).take B) := by
      rw [hroll, List.get?_map, hblkk] at hkget
      exact Option.some.inj hkget
    have hlen_k : blkk.length = B :=
      chunksList_length_eq_of_dvd B hB X hdvd blkk (List.get?_mem hblkk)
    have hlen_j : ((X.drop i).take B).length = B := by
      simp only [List.length_take, List.length_drop]
      omega
    have hblk_eq : blkk = (X.drop i).take B := by
      apply polyHash_inj_of_length _ _ (by omega)
      · intro c hc
        have hcb : c < 128 := hX c (mem_of_mem_chunksList (List.get?_mem hblkk) hc)
        simp only [rollingBase]
        omega
      · intro c hc
        have hcb : c < 128 := hX c (List.mem_of_mem_drop (List.mem_of_mem_take hc))
        simp only [rollingBase]
        omega
      · exact hpoly_k
    have hstrong : (compute_signature X B).strong_hashes.get? k
        = some (calculate_strong_hash blkk) := by
      show ((chunksList B X).map calculate_strong_hash).get? k = _
      rw [List.get?_map, hblkk]
      rfl
    have hslice : (b :: rest.take (B - 1)) = blkk := by
      rw [hblk_eq, ← hu]
      obtain ⟨m, rfl⟩ : ∃ m, B = m + 1 := ⟨B - 1, by omega⟩
      rw [List.take_succ_cons]
      rfl
    rw [hk]
    dsimp only
    rw [hstrong]
    dsimp only
    rw [if_pos (congrArg calculate_strong_hash hslice)]
    have harg : List.drop B
          (((windowsList B X).map polyHash)[i]
            :: List.drop (i + 1) ((windowsList B X).map polyHash))
        = List.drop (i + B) ((windowsList B X).map polyHash) := by
      obtain ⟨m, rfl⟩ : ∃ m, B = m + 1 := ⟨B - 1, by omega⟩
      rw [List.drop_succ_cons, List.drop_drop]
      congr 1
      omega
    have heq1 : rest.drop (B - 1) = X.drop (i + B) := by
      have h1 : rest.drop (B - 1) = (b :: rest).drop B := by
        obtain ⟨m, rfl⟩ : ∃ m, B = m + 1 := ⟨B - 1, by omega⟩
        rw [List.drop_succ_cons]
        rfl
      rw [h1, hu, List.drop_drop]
    obtain ⟨ts, hts, hall⟩ := delta_loop_aligned X B hB hX hdvd
      (rest.drop (B - 1)) (((windowsList B X).map polyHash).drop (i + B)) (i + B)
      heq1 rfl (Nat.dvd_add hdvdi (dvd_refl B))
    rw [hval] at harg
    rw [harg, hts]
    refine ⟨Token.BlockIndex k :: ts, rfl, ?_⟩
    intro t ht
    rcases List.mem_cons.mp ht with h1 | h2
    · exact ⟨k, h1⟩
    · exact hall t h2
  termination_by u' => u'.length
  decreasing_by all_goals simp_arith [List.length_drop]

/-- C3 (amended): for every ASCII byte sequence `X` (all bytes `< 128`)
and every chunk size `B ≥ 1` dividing `|X|`, the delta of `X` against its
own signature consists of `BlockIndex` tokens only.  (For non-UTF-8 bytes
the property fails, see the counterexample: the rolling hashes are
computed from the lossily decoded characters, not the raw bytes.) -/
theorem delta_all_block_indexes_on_equal_ascii (X : Bytes) (B : Nat) (hB : 1 ≤ B)
    (hdvd : B ∣ X.length) (hX : ∀ b ∈ X, b < 128) :
    ∃ d : Delta, compute_delta_to_our_file (compute_signature X B) X B = some d ∧
      ∀ t ∈ d.content, ∃ k, t = Token.BlockIndex k := by
  by_cases hXnil : X = []
  · subst hXnil
    refine ⟨Delta.mk [], ?_, by simp⟩
    rw [compute_delta_to_our_file, compute_rolling_hashes]
    rw [if_neg (by simp only [List.length_nil]; omega)]
    dsimp only [Option.bind]
    rw [delta_loop.eq_def]
    rfl
  · have hpos : 0 < X.length := List.length_pos.mpr hXnil
    have hBle : B ≤ X.length := Nat.le_of_dvd hpos hdvd
    obtain ⟨ts, hts, hall⟩ := delta_loop_aligned X B hB hX hdvd X
      ((windowsList B X).map polyHash) 0 (by simp) (by simp) (dvd_zero B)
    refine ⟨Delta.mk ts, ?_, hall⟩
    rw [compute_delta_to_our_file, compute_rolling_hashes_ascii X B hB hBle hX]
    dsimp only [Option.bind]
    rw [hts]
    rfl

/-- Witness for the amended C3 at a concrete ASCII basis and chunk size. -/
theorem delta_all_block_indexes_on_equal_ascii_witness :
    ∃ d : Delta,
      compute_delta_to_our_file (compute_signature [97, 98, 99, 100, 101, 102] 3)
        [97, 98, 99, 100, 101, 102] 3 = some d ∧
      ∀ t ∈ d.content, ∃ k, t = Token.BlockIndex k :=
  delta_all_block_indexes_on_equal_ascii [97, 98, 99, 100, 101, 102] 3
    (by decide) (by decide) (by decide)

/-- Counterexample to C3 as stated: for the non-UTF-8 basis `[255, 255]`
with `B = 1` dividing its length and the updated file equal to the basis,
the delta contains a `ByteLiteral` token.  The signature hashes the lossily
decoded replacement character `U+FFFD` of each chunk while the sliding
loop pushes the raw byte `255`, so the second window misses the index. -/
theorem delta_not_all_block_indexes_on_non_utf8 :
    compute_delta_to_our_file (compute_signature [255, 255] 1) [255, 255] 1
      = some (Delta.mk [Token.BlockIndex 1, Token.ByteLiteral 255]) := by
  have hchunks : chunksList 1 [255, 255] = [[255], [255]] := by
    rw [chunksList]
    norm_num
    rw [chunksList]
    norm_num
    rw [chunksList]
  have hsig : compute_signature [255, 255] 1
      = FileSignature.mk [256, 256] [65533, 65533] := by
    rw [compute_signature, hchunks]
    simp [utf8LossyChars, calculate_strong_hash,
      RollingHash.from_initial_chars, RollingHash.get_current_hash, polyHash, rollingBase]
  have hrh : compute_rolling_hashes [255, 255] 1 = some [65533, 255] := by decide
  rw [compute_delta_to_our_file, hsig, hrh]
  dsimp only [Option.bind]
  rw [delta_loop.eq_def]
  norm_num [build_their_rolling_hashes, buildHMFrom, insertHM, calculate_strong_hash]
  rw [delta_loop.eq_def]
  norm_num [build_their_rolling_hashes, buildHMFrom, insertHM, calculate_strong_hash]
  rw [delta_loop.eq_def]

/-- C4: evaluation at the failing input.  The strong hashes are computed
from the raw bytes, but the rolling hash of basis chunk `[255]` is the
hash of the replacement character `U+FFFD` (65533) produced by
`from_utf8_lossy`, not the hash of the raw byte `255`; and in the sliding
window vector of `[255, 255]` the first window is hashed after lossy
decoding while the second is the raw byte, so neither equals a raw-byte
hash consistently. -/
theorem rolling_hashes_use_lossy_chars_not_raw_bytes :
    (compute_signature [255] 1).strong_hashes = [calculate_strong_hash [255]] ∧
    (compute_signature [255] 1).rolling_hashes = [polyHash [65533]] ∧
    polyHash [65533] ≠ polyHash [255] ∧
    compute_rolling_hashes [255, 255] 1 = some [polyHash [65533], polyHash [255]] := by
  have hchunks : chunksList 1 [255] = [[255]] := by
    rw [chunksList]
    norm_num
    rw [chunksList]
  refine ⟨?_, ?_, ?_, ?_⟩
  · rw [compute_signature, hchunks]
    rfl
  · rw [compute_signature, hchunks]
    rfl
  · decide
  · decide

/-- C5: on an unreadable input path each CLI handler prints the error and
calls `std::process::exit(0)`: the process exits with code 0 on an I/O
failure, not a non-zero code.  The file system below fails every read. -/
theorem cli_exits_zero_on_read_failure :
    (FileSystem.mk (fun _ => none) (fun _ => true)).readFile 0 = none ∧
    handle_signature_command (FileSystem.mk (fun _ => none) (fun _ => true)) 0 1 10 = 0 ∧
    handle_delta_command (FileSystem.mk (fun _ => none) (fun _ => true)) 0 1 2 10 = 0 ∧
    handle_patch_command (FileSystem.mk (fun _ => none) (fun _ => true)) 0 1 2 10 = 0 :=
  ⟨rfl, rfl, rfl, rfl⟩

/-! ## Serialization round trip -/

theorem toLEBytes_length : ∀ (width n : Nat), (toLEBytes width n).length = width
  | 0, _ => rfl
  | w + 1, n => by
    rw [toLEBytes]
    simp [toLEBytes_length w]

theorem fromLEBytes_toLEBytes : ∀ (width n : Nat),
    fromLEBytes (toLEBytes width n) = n % 256 ^ width
  | 0, n => by simp [toLEBytes, fromLEBytes, Nat.mod_one]
  | w + 1, n => by
    rw [toLEBytes, fromLEBytes, fromLEBytes_toLEBytes w]
    have hpow : (256 : Nat) ^ (w + 1) = 256 * 256 ^ w := by ring
    rw [hpow, Nat.mod_mul]

theorem readU64_encodeU64 (n : Nat) (rest : List Nat) (hn : n < 2 ^ 64) :
    readU64 (encodeU64 n ++ rest) = some (n, rest) := by
  rw [readU64, encodeU64]
  have hlen : (toLEBytes 8 n).length = 8 := toLEBytes_length 8 n
  rw [if_pos (by simp only [List.length_append, hlen]; omega)]
  rw [List.take_left' hlen, List.drop_left' hlen, fromLEBytes_toLEBytes]
  rw [Nat.mod_eq_of_lt (by norm_num at hn ⊢; omega)]

theorem readU64List_encode : ∀ (v rest : List Nat), (∀ x ∈ v, x < 2 ^ 64) →
    readU64List v.length ((v.map encodeU64).flatten ++ rest) = some (v, rest) := by
  intro v
  induction v with
  | nil => intro rest _; rfl
  | cons x xs ih =>
    intro rest hx
    rw [List.map_cons, List.flatten_cons, List.append_assoc]
    rw [List.length_cons, readU64List]
    rw [readU64_encodeU64 x _ (hx x (by simp))]
    dsimp only [Option.bind]
    rw [ih rest (fun y hy => hx y (by simp [hy]))]
    rfl

theorem readU64Vec_encode (v rest : List Nat) (hx : ∀ x ∈ v, x < 2 ^ 64)
    (hlen : v.length < 2 ^ 64) :
    readU64Vec (encodeU64Vec v ++ rest) = some (v, rest) := by
  rw [readU64Vec, encodeU64Vec, List.append_assoc, readU64_encodeU64 _ _ hlen]
  dsimp only [Option.bind]
  exact readU64List_encode v rest hx

theorem readToken_encodeToken (t : Token) (rest : List Nat) (hwf : tokenWF t = true) :
    readToken (encodeToken t ++ rest) = some (t, rest) := by
  cases t with
  | BlockIndex k =>
    have hk : k < 2 ^ 64 := by
      simp only [tokenWF, decide_eq_true_eq] at hwf
      norm_num
      omega
    rw [encodeToken, List.cons_append, readToken.eq_def]
    dsimp only
    rw [if_pos rfl, readU64_encodeU64 k rest hk]
    rfl
  | ByteLiteral b =>
    rw [encodeToken, List.cons_append, List.cons_append, readToken.eq_def]
    dsimp only
    norm_num

theorem readTokens_encode : ∀ (ts : List Token) (rest : List Nat),
    (∀ t ∈ ts, tokenWF t = true) →
    readTokens ts.length ((ts.map encodeToken).flatten ++ rest) = some (ts, rest) := by
  intro ts
  induction ts with
  | nil => intro rest _; rfl
  | cons t ts2 ih =>
    intro rest ht
    rw [List.map_cons, List.flatten_cons, List.append_assoc]
    rw [List.length_cons, readTokens]
    rw [readToken_encodeToken t _ (ht t (by simp))]
    dsimp only [Option.bind]
    rw [ih rest (fun y hy => ht y (by simp [hy]))]
    rfl

/-- C9: serializing a well-formed `FileSignature` or `Delta` to bytes and
deserializing back is the identity (well-formed: every stored hash fits in
a `u64`, every `BlockIndex` fits in a `usize`, every `ByteLiteral` is one
byte, and the vector lengths fit in a `u64`). -/
theorem serialization_round_trip (s : FileSignature) (d : Delta)
    (hs1 : ∀ h ∈ s.strong_hashes, h < 2 ^ 64)
    (hs2 : ∀ h ∈ s.rolling_hashes, h < 2 ^ 64)
    (hsl1 : s.strong_hashes.length < 2 ^ 64)
    (hsl2 : s.rolling_hashes.length < 2 ^ 64)
    (hd : ∀ t ∈ d.content, tokenWF t = true)
    (hdl : d.content.length < 2 ^ 64) :
    FileSignature.fromBytes (FileSignature.toBytes s) = some s ∧
    Delta.fromBytes (Delta.toBytes d) = some d := by
  constructor
  · rw [FileSignature.toBytes, FileSignature.fromBytes]
    rw [readU64Vec_encode s.strong_hashes _ hs1 hsl1]
    dsimp only [Option.bind]
    have h2 := readU64Vec_encode s.rolling_hashes [] hs2 hsl2
    rw [List.append_nil] at h2
    rw [h2]
    dsimp only [Option.bind]
    rw [if_pos rfl]
  · rw [Delta.toBytes, Delta.fromBytes]
    have h1 := readU64_encodeU64 d.content.length
      ((d.content.map encodeToken).flatten) hdl
    rw [h1]
    dsimp only [Option.bind]
    have h2 := readTokens_encode d.content [] hd
    rw [List.append_nil] at h2
    rw [h2]
    dsimp only [Option.bind]
    rw [if_pos rfl]

/-- Witness for C9 at a concrete signature and delta. -/
theorem serialization_round_trip_witness :
    FileSignature.fromBytes (FileSignature.toBytes (FileSignature.mk [7, 8] [9, 10]))
      = some (FileSignature.mk [7, 8] [9, 10]) ∧
    Delta.fromBytes (Delta.toBytes
        (Delta.mk [Token.BlockIndex 3, Token.ByteLiteral 200]))
      = some (Delta.mk [Token.BlockIndex 3, Token.ByteLiteral 200]) :=
  serialization_round_trip (FileSignature.mk [7, 8] [9, 10])
    (Delta.mk [Token.BlockIndex 3, Token.ByteLiteral 200])
    (by decide) (by decide) (by decide) (by decide) (by decide) (by decide)

end Rsync
